import Mathlib

/-!
A shallow embedding of the `transmute_guard` library (src/lib.rs) and proofs
of its specification's properties.

The library has two parts that the properties concern:

* the capability-marker transmute vocabulary (`TransmuteGuard`,
  `SafeTransmuteFrom`, the free functions `safe_transmute`,
  `safe_transmute_slice`, ...), embedded here as explicit implementation
  records (Rust trait dispatch becomes an explicit record argument), and

* the `enum_alias!` generator (src/lib.rs lines 189-269), embedded
  generically: a parent `repr(u8)` enumeration is a list of
  (variant name, discriminant) pairs, an alias generation is the parent
  together with the chosen list of variant names, and each generated
  operation is transcribed from the corresponding expansion of the macro.
  A parent or alias *value* is the name of its variant; machine bytes are
  `Nat` (all discriminants are below 256, which well-formedness records).
-/

namespace TransmuteGuard

/-- An implementation of `SafeTransmuteFrom<Src> for Dst` (src/lib.rs
lines 15-17): the single method `safe_transmute_from`.  The marker trait
`TransmuteGuard` it extends carries no data or methods. -/
structure SafeTransmuteFromImpl (Src Dst : Type) where
  safe_transmute_from : Src → Dst

/-- The free function `safe_transmute` (src/lib.rs lines 106-112): it
dispatches to the `SafeTransmuteFrom` implementation for the pair. -/
def safe_transmute {Src Dst : Type} (inst : SafeTransmuteFromImpl Src Dst) (src : Src) : Dst :=
  inst.safe_transmute_from src

/-- The reflexive implementation `SafeTransmuteFrom<T> for T` (src/lib.rs
lines 18-23): the body returns `value` unchanged. -/
def reflImpl (T : Type) : SafeTransmuteFromImpl T T :=
  { safe_transmute_from := fun value => value }

/-- The implementation `SafeTransmuteFrom<bool> for u8` (src/lib.rs lines
98-104): the body is `value.into()`, core's bool-to-u8 conversion, which
encodes `false` as 0 and `true` as 1.  `u8` is modelled as `Nat`. -/
def boolU8Impl : SafeTransmuteFromImpl Bool Nat :=
  { safe_transmute_from := fun value => if value then 1 else 0 }

/-- A borrowed slice reference `&[T]`: a fat pointer made of a base address
and an element count. -/
structure SliceRef where
  addr : Nat
  len : Nat

/-- The free function `safe_transmute_slice` (src/lib.rs lines 152-160): it
casts the fat pointer `*const [Src]` to `*const [Dst]`, which keeps the
address and the element-count metadata unchanged, and reads or writes no
memory.  The `TransmuteGuard` bound it requires is a compile-time marker
with no runtime content, so it does not appear as an argument. -/
def safe_transmute_slice (src : SliceRef) : SliceRef :=
  { addr := src.addr, len := src.len }

/-- The bytes a slice reference denotes in a memory, for a given element
size: the `len * elemSize` bytes starting at `addr`. -/
def sliceBytes (mem : Nat → Nat) (r : SliceRef) (elemSize : Nat) : List Nat :=
  (List.range (r.len * elemSize)).map (fun i => mem (r.addr + i))

/-- A parent `repr(u8)` enumeration: its variants in declaration order, each
a name paired with its numeric discriminant. -/
structure ParentEnum where
  variants : List (String × Nat)

/-- The variant names of a parent enumeration. -/
def ParentEnum.names (P : ParentEnum) : List String :=
  P.variants.map Prod.fst

/-- The discriminants of a parent enumeration. -/
def ParentEnum.discs (P : ParentEnum) : List Nat :=
  P.variants.map Prod.snd

/-- The discriminant of a named variant (`<Parent>::Name as u8`): the
discriminant recorded for the variant of that name, `none` if no variant
has that name. -/
def ParentEnum.disc? (P : ParentEnum) (n : String) : Option Nat :=
  (P.variants.find? (fun v => v.1 == n)).map Prod.snd

/-- Reinterpretation of a byte as a parent value (the untyped core of
`core::mem::transmute` into the enum): the variant whose discriminant is
that byte, `none` if the byte is no variant's discriminant (in which case
the Rust transmute is undefined behavior). -/
def ParentEnum.fromDisc? (P : ParentEnum) (d : Nat) : Option String :=
  (P.variants.find? (fun v => v.2 == d)).map Prod.fst

/-- Rust's compile-time well-formedness of a `repr(u8)` enumeration:
variant names are distinct, discriminants are distinct, and every
discriminant fits in a `u8`. -/
def ParentEnum.wf (P : ParentEnum) : Prop :=
  P.names.Nodup ∧ P.discs.Nodup ∧ ∀ d ∈ P.discs, d < 256

instance (P : ParentEnum) : Decidable P.wf := by
  unfold ParentEnum.wf
  infer_instance

/-- One invocation of the `enum_alias!` generator (src/lib.rs lines
189-269): the parent enumeration and the chosen list of variant names.  An
alias value is the name of one of the chosen variants. -/
structure EnumAlias where
  parent : ParentEnum
  chosen : List String

/-- The generated `as_u8` (src/lib.rs lines 207-210): `self as u8`, the
discriminant the generated enum assigns to the variant — which the macro
sets to `<$ty>::$variant as u8` (src/lib.rs lines 201-202), the parent's
discriminant for the same name. -/
def EnumAlias.asU8? (A : EnumAlias) (a : String) : Option Nat :=
  A.parent.disc? a

/-- The generated `as_parent` (src/lib.rs lines 212-215):
`::core::mem::transmute(self)` — the alias value's byte reinterpreted as a
parent value. -/
def EnumAlias.asParent? (A : EnumAlias) (a : String) : Option String :=
  (A.parent.disc? a).bind A.parent.fromDisc?

/-- The explicit per-variant widening match generated only under
`#[cfg(debug_assertions)]` inside `From<$name> for $ty` (src/lib.rs lines
244-251): each alias variant is mapped to the parent variant of the same
name.  `none` models a value that is not a variant of the alias. -/
def EnumAlias.asParentSlow? (A : EnumAlias) (a : String) : Option String :=
  if a ∈ A.chosen then some a else none

/-- The generated `From<$name> for $ty` in a debug (verification) build
(src/lib.rs lines 240-259): it computes `self_dev` by the explicit
per-variant match and `self_prod` by `as_parent`, asserts the two equal
(`debug_assert_eq!`, which aborts on mismatch, modelled as `none`), and
returns `self_prod`. -/
def EnumAlias.fromParentDebug? (A : EnumAlias) (a : String) : Option String :=
  match A.asParentSlow? a, A.asParent? a with
  | some dev, some prod => if dev = prod then some prod else none
  | _, _ => none

/-- The generated `try_from_parent` (src/lib.rs lines 217-228): it matches
the parent value against `<$ty>::$variant` for each chosen variant in
order, returning the same-named alias variant on a match, and falls through
to `_ => Err(())`. -/
def EnumAlias.tryFromParent (A : EnumAlias) (p : String) : Except Unit String :=
  match A.chosen.find? (fun v => v == p) with
  | some v => Except.ok v
  | none => Except.error ()

/-- Whether the match generated for `try_from_parent` is exhaustive, which
Rust requires for the expansion to compile.  The wildcard arm `_ => Err(())`
sits inside the optional repetition `$( ... )?` (src/lib.rs lines 220-226),
so when the chosen variant list is empty the match has no arms at all and
is exhaustive only if the parent enumeration is uninhabited. -/
def EnumAlias.tryFromParentMatchExhaustive (A : EnumAlias) : Bool :=
  if A.chosen.isEmpty then A.parent.variants.isEmpty else true

/-- Compile-time well-formedness of one `enum_alias!` generation: the
parent is a well-formed enum, the chosen names are distinct (duplicate
variant names in the generated enum are a compile error), every chosen name
is a parent variant (`<$ty>::$variant` must resolve), and the generated
`try_from_parent` match is exhaustive. -/
def EnumAlias.wf (A : EnumAlias) : Prop :=
  A.parent.wf ∧ A.chosen.Nodup ∧ (∀ n ∈ A.chosen, n ∈ A.parent.names) ∧
    A.tryFromParentMatchExhaustive = true

instance (A : EnumAlias) : Decidable A.wf := by
  unfold EnumAlias.wf
  infer_instance

/-- The parent enumeration of the specification's concrete scenario:
`Color = {Red = 0, Green = 1, Blue = 2}`. -/
def Color : ParentEnum :=
  { variants := [("Red", 0), ("Green", 1), ("Blue", 2)] }

/-- The alias of the specification's concrete scenario: `Primary`
generated over `{Red, Blue}` of `Color`. -/
def Primary : EnumAlias :=
  { parent := Color, chosen := ["Red", "Blue"] }

/-! Helper lemmas about `List.find?` over the variant table. -/

theorem find?_fst_eq {l : List (String × Nat)} {n : String} {d : Nat}
    (hnd : (l.map Prod.fst).Nodup) (hm : (n, d) ∈ l) :
    l.find? (fun v => v.1 == n) = some (n, d) := by
  induction l with
  | nil => cases hm
  | cons x tl ih =>
    rw [List.map_cons, List.nodup_cons] at hnd
    rcases List.mem_cons.mp hm with h | h
    · rw [← h]
      simp [List.find?]
    · have hne : x.1 ≠ n := fun he =>
        hnd.1 (he ▸ List.mem_map.mpr ⟨(n, d), h, rfl⟩)
      have hb : (x.1 == n) = false := beq_eq_false_iff_ne.mpr hne
      simp [List.find?, hb, ih hnd.2 h]

theorem find?_snd_eq {l : List (String × Nat)} {n : String} {d : Nat}
    (hnd : (l.map Prod.snd).Nodup) (hm : (n, d) ∈ l) :
    l.find? (fun v => v.2 == d) = some (n, d) := by
  induction l with
  | nil => cases hm
  | cons x tl ih =>
    rw [List.map_cons, List.nodup_cons] at hnd
    rcases List.mem_cons.mp hm with h | h
    · rw [← h]
      simp [List.find?]
    · have hne : x.2 ≠ d := fun he =>
        hnd.1 (he ▸ List.mem_map.mpr ⟨(n, d), h, rfl⟩)
      have hb : (x.2 == d) = false := beq_eq_false_iff_ne.mpr hne
      simp [List.find?, hb, ih hnd.2 h]

theorem find?_beq_self {l : List String} {p : String} (hp : p ∈ l) :
    l.find? (fun v => v == p) = some p := by
  induction l with
  | nil => cases hp
  | cons x tl ih =>
    by_cases h : x = p
    · subst h
      simp [List.find?]
    · have h2 : p ∈ tl := by
        rcases List.mem_cons.mp hp with h3 | h3
        · exact absurd h3.symm h
        · exact h3
      have hb : (x == p) = false := beq_eq_false_iff_ne.mpr h
      simp [List.find?, hb, ih h2]

/-- Under a well-formed generation, a chosen name has a discriminant in the
parent, and reinterpreting that discriminant recovers the same variant. -/
theorem EnumAlias.disc_fromDisc_of_mem {A : EnumAlias} (hwf : A.wf) {a : String}
    (ha : a ∈ A.chosen) :
    ∃ d, A.parent.disc? a = some d ∧ A.parent.fromDisc? d = some a := by
  obtain ⟨⟨hnames, hdiscs, _⟩, _, hsub, _⟩ := hwf
  obtain ⟨x, hx, hx1⟩ := List.mem_map.mp (hsub a ha)
  have hmem : (a, x.2) ∈ A.parent.variants := by
    rw [← hx1]
    exact hx
  refine ⟨x.2, ?_, ?_⟩
  · simp [ParentEnum.disc?, find?_fst_eq hnames hmem]
  · simp [ParentEnum.fromDisc?, find?_snd_eq hdiscs hmem]

/-- Under a well-formed generation, widening an alias value by raw
reinterpretation yields the same-named parent variant. -/
theorem EnumAlias.asParent_of_mem {A : EnumAlias} (hwf : A.wf) {a : String}
    (ha : a ∈ A.chosen) : A.asParent? a = some a := by
  obtain ⟨d, h1, h2⟩ := EnumAlias.disc_fromDisc_of_mem hwf ha
  simp [EnumAlias.asParent?, h1, h2]

/-! The claims. -/

/-- C1: for every well-formed alias generation and every alias variant, the
numeric discriminant of the alias value equals the discriminant of the
same-named parent variant it widens to: `as_underlying(v)` is defined and
`as_underlying(as_parent(v)) == as_underlying(v)`. -/
theorem discriminant_preservation (A : EnumAlias) (hwf : A.wf) (a : String)
    (ha : a ∈ A.chosen) :
    (A.asU8? a).isSome ∧ (A.asParent? a).bind A.parent.disc? = A.asU8? a := by
  obtain ⟨d, h1, _⟩ := EnumAlias.disc_fromDisc_of_mem hwf ha
  have hp := EnumAlias.asParent_of_mem hwf ha
  constructor
  · simp [EnumAlias.asU8?, h1]
  · rw [hp]
    simp [EnumAlias.asU8?]

theorem discriminant_preservation_witness :
    Primary.wf ∧ "Red" ∈ Primary.chosen ∧
      ((Primary.asU8? "Red").isSome ∧
        (Primary.asParent? "Red").bind Primary.parent.disc? = Primary.asU8? "Red") :=
  ⟨by decide, by decide, discriminant_preservation Primary (by decide) "Red" (by decide)⟩

/-- C2: for every well-formed alias generation and every constructible alias
value, the fast widening path (raw reinterpretation, `as_parent`) equals the
slow path (the explicit per-variant match), and the debug-build `From`
implementation, which computes both and asserts them equal, does not abort
and returns that common value. -/
theorem fast_slow_path_equivalence (A : EnumAlias) (hwf : A.wf) (a : String)
    (ha : a ∈ A.chosen) :
    A.asParentSlow? a = A.asParent? a ∧
      A.fromParentDebug? a = A.asParent? a ∧ (A.fromParentDebug? a).isSome := by
  have hp := EnumAlias.asParent_of_mem hwf ha
  have hs : A.asParentSlow? a = some a := by simp [EnumAlias.asParentSlow?, ha]
  refine ⟨by rw [hp, hs], ?_, ?_⟩
  · simp [EnumAlias.fromParentDebug?, hs, hp]
  · simp [EnumAlias.fromParentDebug?, hs, hp]

theorem fast_slow_path_equivalence_witness :
    Primary.wf ∧ "Blue" ∈ Primary.chosen ∧
      (Primary.asParentSlow? "Blue" = Primary.asParent? "Blue" ∧
        Primary.fromParentDebug? "Blue" = Primary.asParent? "Blue" ∧
        (Primary.fromParentDebug? "Blue").isSome) :=
  ⟨by decide, by decide, fast_slow_path_equivalence Primary (by decide) "Blue" (by decide)⟩

/-- C3: for every well-formed alias generation and every chosen variant,
narrowing the widened value recovers the alias value:
`try_from_parent(as_parent(v)) == Ok(v)`. -/
theorem widen_narrow_round_trip (A : EnumAlias) (hwf : A.wf) (a p : String)
    (ha : a ∈ A.chosen) (hp : A.asParent? a = some p) :
    A.tryFromParent p = Except.ok a := by
  have h := EnumAlias.asParent_of_mem hwf ha
  rw [h] at hp
  obtain rfl := Option.some.inj hp
  simp [EnumAlias.tryFromParent, find?_beq_self ha]

theorem widen_narrow_round_trip_witness :
    Primary.wf ∧ "Red" ∈ Primary.chosen ∧ Primary.asParent? "Red" = some "Red" ∧
      Primary.tryFromParent "Red" = Except.ok "Red" :=
  ⟨by decide, by decide, rfl,
    widen_narrow_round_trip Primary (by decide) "Red" "Red" (by decide) rfl⟩

/-- C4: narrowing errs exactly off the chosen subset: for every parent
variant in the subset `try_from_parent` returns `Ok` of the same-named alias
variant, and for every parent variant not in the subset it returns
`Err(())`. -/
theorem narrowing_domain (A : EnumAlias) (hwf : A.wf) (p : String)
    (hp : p ∈ A.parent.names) :
    (p ∈ A.chosen → A.tryFromParent p = Except.ok p) ∧
      (p ∉ A.chosen → A.tryFromParent p = Except.error ()) := by
  constructor
  · intro hmem
    simp [EnumAlias.tryFromParent, find?_beq_self hmem]
  · intro hnot
    have hnone : A.chosen.find? (fun v => v == p) = none := by
      rw [List.find?_eq_none]
      intro x hx hbeq
      rw [eq_of_beq hbeq] at hx
      exact hnot hx
    simp [EnumAlias.tryFromParent, hnone]

theorem narrowing_domain_witness :
    Primary.wf ∧ "Green" ∈ Primary.parent.names ∧
      (("Green" ∈ Primary.chosen → Primary.tryFromParent "Green" = Except.ok "Green") ∧
        ("Green" ∉ Primary.chosen → Primary.tryFromParent "Green" = Except.error ())) :=
  ⟨by decide, by decide, narrowing_domain Primary (by decide) "Green" (by decide)⟩

/-- C5: the value transmute is reflexively the identity: `safe_transmute`
through the reflexive `SafeTransmuteFrom<T> for T` implementation returns
its argument unchanged, for every type and every value. -/
theorem value_transmute_reflexive {T : Type} (x : T) :
    safe_transmute (reflImpl T) x = x :=
  rfl

/-- C6: the concrete scenario: with parent `Color = {Red = 0, Green = 1,
Blue = 2}` and alias `Primary` over `{Red, Blue}`, widening `Red` gives
`Color::Red`, narrowing `Green` fails, narrowing `Blue` gives
`Primary::Blue`, and the discriminant of `Primary::Blue` is 2. -/
theorem primary_concrete_scenario :
    Primary.asParent? "Red" = some "Red" ∧
      Primary.tryFromParent "Green" = Except.error () ∧
      Primary.tryFromParent "Blue" = Except.ok "Blue" ∧
      Primary.asU8? "Blue" = some 2 :=
  ⟨rfl, rfl, rfl, rfl⟩

/-- C7: the slice transmute preserves element count and content: the fat
pointer cast keeps the length metadata, and, the function touching no
memory, the bytes the resulting slice denotes are exactly the bytes the
source slice denotes. -/
theorem slice_transmute_preserves (mem : Nat → Nat) (r : SliceRef) (s : Nat) :
    (safe_transmute_slice r).len = r.len ∧
      sliceBytes mem (safe_transmute_slice r) s = sliceBytes mem r s :=
  ⟨rfl, rfl⟩

/-- C8: the built-in bool-to-u8 conversion maps to the 0/1 numeric
encoding: `safe_transmute::<bool, u8>(false) == 0` and
`safe_transmute::<bool, u8>(true) == 1`. -/
theorem bool_u8_encoding :
    safe_transmute boolU8Impl false = 0 ∧ safe_transmute boolU8Impl true = 1 :=
  ⟨rfl, rfl⟩

/-- C9: invoking `enum_alias!` with an empty variant list is accepted by the
macro grammar but the expansion does not compile: the generated
`try_from_parent` is a match with no arms at all, because the wildcard
`_ => Err(())` arm sits inside the optional repetition, and the parent
`Color` is inhabited, so the match is non-exhaustive — the generation is
rejected at compile time instead of producing an alias on which narrowing
always fails. -/
theorem empty_variant_list_rejected :
    (EnumAlias.mk Color []).tryFromParentMatchExhaustive = false ∧
      Color.variants ≠ [] ∧ ¬ (EnumAlias.mk Color []).wf := by
  refine ⟨rfl, by decide, ?_⟩
  intro h
  obtain ⟨_, _, _, hex⟩ := h
  exact Bool.false_ne_true hex

/-- C10: successful narrowing inverts to the original parent value: for
every well-formed alias generation, if `try_from_parent(p) == Ok(a)` then
`as_parent(a)` is defined and equals `p`. -/
theorem narrow_widen_round_trip (A : EnumAlias) (hwf : A.wf) (p a : String)
    (h : A.tryFromParent p = Except.ok a) :
    A.asParent? a = some p := by
  unfold EnumAlias.tryFromParent at h
  cases hfind : A.chosen.find? (fun v => v == p) with
  | none => simp [hfind] at h
  | some v =>
    rw [hfind] at h
    simp at h
    subst h
    have hmem := List.mem_of_find?_eq_some hfind
    have hbeq := List.find?_some hfind
    rw [eq_of_beq hbeq] at hmem ⊢
    exact EnumAlias.asParent_of_mem hwf hmem

theorem narrow_widen_round_trip_witness :
    Primary.wf ∧ Primary.tryFromParent "Blue" = Except.ok "Blue" ∧
      Primary.asParent? "Blue" = some "Blue" :=
  ⟨by decide, rfl, narrow_widen_round_trip Primary (by decide) "Blue" "Blue" rfl⟩

end TransmuteGuard
